import Mathlib

/-!
Verification of the MP media player subtitle engine and player helpers.

The definitions below are a shallow embedding of the C++ sources
(subtitle.cpp / subtitle.h / media.cpp / media.h) of the multi-media-player
repository.  Strings are modelled as lists of characters, `double` times as
rationals (only order comparisons and exact decimal arithmetic occur in the
modelled code paths), and the stateful loaders as folds over the list of
input lines with an explicit state record.
-/

namespace MP

/-- Opening curly brace character, written via its code point. -/
def braceOpen : Char := Char.ofNat 123

/-- Closing curly brace character, written via its code point. -/
def braceClose : Char := Char.ofNat 125

/-- Byte-order mark; the byte-level BOM test of `load_srt` is modelled as a
single U+FEFF character at the start of a decoded line. -/
def bomChar : Char := Char.ofNat 0xFEFF

/-- Whitespace set " \t\r\n" used by `clean_text` trimming and by the
SRT timecode tail cut. -/
def isWs (c : Char) : Bool := c = ' ' ∨ c = '\t' ∨ c = '\r' ∨ c = '\n'

/-- Blank set " \t" used by the field trimming helpers in the loaders. -/
def isBlank (c : Char) : Bool := c = ' ' ∨ c = '\t'

/-- Embedding of the depth-tracked bracket stripping loop shared by
`SubtitleTrack::strip_ass_tags` and `SubtitleTrack::strip_html_tags`
(subtitle.cpp lines 37-60).  `d` is the running `int depth`. -/
def stripTagsAux (opn cls : Char) : Int → List Char → List Char
  | _, [] => []
  | d, c :: rest =>
    if c = opn then stripTagsAux opn cls (d + 1) rest
    else if c = cls then stripTagsAux opn cls (if 0 < d then d - 1 else d) rest
    else if d = 0 then c :: stripTagsAux opn cls d rest
    else stripTagsAux opn cls d rest

/-- Embedding of `SubtitleTrack::strip_ass_tags`: removes curly-brace blocks. -/
def strip_ass_tags (s : List Char) : List Char :=
  stripTagsAux braceOpen braceClose 0 s

/-- Embedding of `SubtitleTrack::strip_html_tags`: removes angle-bracket blocks. -/
def strip_html_tags (s : List Char) : List Char :=
  stripTagsAux '<' '>' 0 s

/-- Embedding of the escape-replacement loop in `SubtitleTrack::clean_text`
(subtitle.cpp lines 67-78): a backslash followed by N or n becomes a real
newline, anything else is copied. -/
def unescapeNewlines : List Char → List Char
  | [] => []
  | [c] => [c]
  | a :: b :: rest =>
    if a = '\\' ∧ (b = 'N' ∨ b = 'n') then '\n' :: unescapeNewlines rest
    else a :: unescapeNewlines (b :: rest)

/-- Trim with respect to a character class, both ends; models the
find_first_not_of / find_last_not_of pattern (empty result when every
character is in the class). -/
def trimBy (p : Char → Bool) (l : List Char) : List Char :=
  ((l.dropWhile p).reverse.dropWhile p).reverse

/-- Whitespace trimming at the end of `SubtitleTrack::clean_text`. -/
def trimWs (l : List Char) : List Char := trimBy isWs l

/-- Blank trimming (" \t") used for timecode and field strings. -/
def trimBlank (l : List Char) : List Char := trimBy isBlank l

/-- Embedding of `SubtitleTrack::clean_text` (subtitle.cpp lines 63-85):
strip HTML tags, strip ASS override tags, replace newline escapes, trim. -/
def clean_text (s : List Char) : List Char :=
  trimWs (unescapeNewlines (strip_ass_tags (strip_html_tags s)))

/-- Digit accumulator for the sscanf %d model. -/
def digitsToNat (ds : List Char) : Nat :=
  ds.foldl (fun a c => a * 10 + (c.toNat - '0'.toNat)) 0

/-- Model of one sscanf `%d` conversion: skip leading whitespace, optional
sign, then at least one digit; returns the value and the rest of the input,
or none on a matching failure. -/
def scanInt (l : List Char) : Option (Int × List Char) :=
  let l1 := l.dropWhile isWs
  match l1 with
  | '-' :: r =>
    let ds := r.takeWhile (·.isDigit)
    if ds = [] then none else some (-(digitsToNat ds : Int), r.dropWhile (·.isDigit))
  | '+' :: r =>
    let ds := r.takeWhile (·.isDigit)
    if ds = [] then none else some ((digitsToNat ds : Int), r.dropWhile (·.isDigit))
  | _ =>
    let ds := l1.takeWhile (·.isDigit)
    if ds = [] then none else some ((digitsToNat ds : Int), l1.dropWhile (·.isDigit))

/-- Model of a literal (non-whitespace) character in an sscanf format string:
it must match the next input character exactly. -/
def expectChar (c : Char) : List Char → Option (List Char)
  | [] => none
  | x :: rest => if x = c then some rest else none

/-- Model of `sscanf(ts, "%d:%d:%d<sep>%d", &h, &m, &s, &frac)`: fields keep
their zero initialisation from the first failing conversion on (subtitle.cpp
lines 19-30). -/
def scanfTime (sep : Char) (ts : List Char) : Int × Int × Int × Int :=
  match scanInt ts with
  | none => (0, 0, 0, 0)
  | some (h, r1) =>
    match expectChar ':' r1 with
    | none => (h, 0, 0, 0)
    | some r2 =>
      match scanInt r2 with
      | none => (h, 0, 0, 0)
      | some (m, r3) =>
        match expectChar ':' r3 with
        | none => (h, m, 0, 0)
        | some r4 =>
          match scanInt r4 with
          | none => (h, m, 0, 0)
          | some (s, r5) =>
            match expectChar sep r5 with
            | none => (h, m, s, 0)
            | some r6 =>
              match scanInt r6 with
              | none => (h, m, s, 0)
              | some (f, _) => (h, m, s, f)

/-- Embedding of `SubtitleTrack::parse_srt_time`: "HH:MM:SS,mmm" to seconds. -/
def parse_srt_time (ts : List Char) : ℚ :=
  let q := scanfTime ',' ts
  (q.1 : ℚ) * 3600 + (q.2.1 : ℚ) * 60 + (q.2.2.1 : ℚ) + (q.2.2.2 : ℚ) / 1000

/-- Embedding of `SubtitleTrack::parse_ass_time`: "H:MM:SS.cc" to seconds. -/
def parse_ass_time (ts : List Char) : ℚ :=
  let q := scanfTime '.' ts
  (q.1 : ℚ) * 3600 + (q.2.1 : ℚ) * 60 + (q.2.2.1 : ℚ) + (q.2.2.2 : ℚ) / 100

/-- Embedding of `SubtitleEntry` (subtitle.h): start / end seconds plus the
cleaned text.  The C++ field `end` is spelt `end_` here because `end` is a
Lean keyword. -/
structure SubtitleEntry where
  start : ℚ
  end_ : ℚ
  text : List Char
deriving DecidableEq

/-- Embedding of `SubtitleTrack::get_active` (subtitle.cpp lines 311-325).
The `std::upper_bound` call with comparator `t < e.start` returns, on a
range sorted by `start`, the partition point: the first index whose entry
has `t < start`; `List.findIdx` computes exactly that index on a sorted
list, which is the only situation in which the C++ call is specified. -/
def get_active (es : List SubtitleEntry) (t : ℚ) : List Char :=
  if es.isEmpty then []
  else
    let i := es.findIdx fun e => decide (t < e.start)
    if i = 0 then []
    else
      let e := es.getD (i - 1) ⟨0, 0, []⟩
      if e.start ≤ t ∧ t < e.end_ then e.text else []

/-- Embedding of the `std::lower_bound` insertion in
`SubtitleTrack::add_ffmpeg_entry`: the new entry is placed before the first
stored entry whose start is not smaller than the new start. -/
def insertByStart (x : SubtitleEntry) : List SubtitleEntry → List SubtitleEntry
  | [] => [x]
  | e :: es => if e.start < x.start then e :: insertByStart x es else x :: e :: es

/-- Embedding of `SubtitleTrack::add_ffmpeg_entry` (subtitle.cpp lines
286-298): clean the text, drop the entry when the cleaned text is empty,
otherwise insert at the sorted position determined by `start`. -/
def add_ffmpeg_entry (es : List SubtitleEntry) (start end_ : ℚ) (raw : List Char) :
    List SubtitleEntry :=
  let text := clean_text raw
  if text = [] then es else insertByStart ⟨start, end_, text⟩ es

/-- Embedding of `SubtitleTrack::sort_entries`: `std::sort` with comparator
`a.start < b.start` produces some permutation sorted by start; `mergeSort`
with the corresponding total order realises that. -/
def sort_entries (es : List SubtitleEntry) : List SubtitleEntry :=
  es.mergeSort fun a b => decide (a.start ≤ b.start)

/-- State of the `load_srt` line loop (subtitle.cpp lines 91-166). -/
structure SrtState where
  cur_start : ℚ
  cur_end : ℚ
  text_buf : List Char
  in_entry : Bool
  entries : List SubtitleEntry
deriving DecidableEq

/-- Embedding of the `flush` lambda of `load_srt` (subtitle.cpp lines
111-119): a pending entry is stored only when its cleaned text is
non-empty; the text buffer and the in-entry flag are always reset. -/
def srtFlush (st : SrtState) : SrtState :=
  let entries :=
    if st.in_entry ∧ st.text_buf ≠ [] then
      let t := clean_text st.text_buf
      if t ≠ [] then st.entries ++ [⟨st.cur_start, st.cur_end, t⟩] else st.entries
    else st.entries
  { st with entries := entries, text_buf := [], in_entry := false }

/-- Drop a leading byte-order mark (modelled at character level). -/
def stripBom : List Char → List Char
  | [] => []
  | c :: rest => if c = bomChar then rest else c :: rest

/-- Drop a trailing carriage return (the `trim_cr` lambdas). -/
def trimCr (l : List Char) : List Char :=
  if l.getLast? = some '\r' then l.dropLast else l

/-- First index at which `pat` occurs as a contiguous substring, the
`std::string::find` model. -/
def findSubstrIdx (pat : List Char) : List Char → Option Nat
  | [] => if pat.isPrefixOf ([] : List Char) then some 0 else none
  | c :: rest =>
    if pat.isPrefixOf (c :: rest) then some 0
    else (findSubstrIdx pat rest).map (· + 1)

/-- Embedding of the end-timecode tail cut in `load_srt` (line 149): find the
first non-blank character, then cut at the first whitespace from there. -/
def srtCutTail (e : List Char) : List Char :=
  match e.findIdx? fun c => !isBlank c with
  | none => e
  | some p0 =>
    match (e.drop p0).findIdx? isWs with
    | none => e
    | some q => e.take (p0 + q)

/-- Embedding of one iteration of the `load_srt` line loop. -/
def srtLineStep (st : SrtState) (line0 : List Char) : SrtState :=
  let line := trimCr (stripBom line0)
  if line = [] then srtFlush st
  else if line.all (·.isDigit) then
    let st1 := srtFlush st
    { st1 with in_entry := true, cur_start := 0, cur_end := 0 }
  else
    match findSubstrIdx ['-', '-', '>'] line with
    | some arrow =>
      let sStr := trimBlank (line.take arrow)
      let eStr := trimBlank (srtCutTail (line.drop (arrow + 3)))
      { st with cur_start := parse_srt_time sStr, cur_end := parse_srt_time eStr }
    | none =>
      if st.in_entry then
        { st with
          text_buf := if st.text_buf = [] then line else st.text_buf ++ '\n' :: line }
      else st

/-- Embedding of `SubtitleTrack::load_srt` on the file's decoded lines:
process every line, flush the trailing entry, and report whether at least
one entry was accepted. -/
def load_srt (ls : List (List Char)) : List SubtitleEntry × Bool :=
  let st := srtFlush (ls.foldl srtLineStep ⟨0, 0, [], false, []⟩)
  (st.entries, !st.entries.isEmpty)

/-- State of the `load_ass` line loop (subtitle.cpp lines 172-261). -/
structure AssState where
  in_events : Bool
  text_col_idx : Nat
  entries : List SubtitleEntry
deriving DecidableEq

/-- Field splitting of the Format line: `std::getline(ss, field, ',')`
produces no field for empty input and drops a trailing empty field. -/
def getlineSplit : List Char → List (List Char)
  | [] => []
  | c :: rest =>
    if c = ',' then [] :: getlineSplit rest
    else
      match getlineSplit rest with
      | [] => [[c]]
      | f :: fs => (c :: f) :: fs

/-- Trimming of a Format field (subtitle.cpp lines 204-207): the substring is
taken only when a non-blank character exists, an all-blank field is kept
unchanged. -/
def assFormatFieldTrim (f : List Char) : List Char :=
  if f.all isBlank then f else trimBlank f

/-- Search for the field named Text, counting fields until the first match
(the loop with `break` in the Format handler). -/
def findTextIdxAux : List (List Char) → Nat → Option Nat
  | [], _ => none
  | f :: fs, idx =>
    if assFormatFieldTrim f = ['T', 'e', 'x', 't'] then some idx
    else findTextIdxAux fs (idx + 1)

/-- Embedding of the Format-line handler: the Text column index, defaulting
to 9 when no field is named Text. -/
def parseFormatLine (line : List Char) : Nat :=
  (findTextIdxAux (getlineSplit (line.drop 7)) 0).getD 9

/-- Split off the part before the first comma, with the rest. -/
def splitFirstComma (d : List Char) : Option (List Char × List Char) :=
  match d.findIdx? (· = ',') with
  | none => none
  | some i => some (d.take i, d.drop (i + 1))

/-- Embedding of the Dialogue field extraction loop (subtitle.cpp lines
221-237): `n` counts the columns still preceding the Text column; the Text
column takes the whole remainder, and a missing comma ends the loop with the
remainder as the last field. -/
def dialogueFieldsAux : Nat → List Char → List (List Char)
  | 0, d => [d]
  | n + 1, d =>
    match splitFirstComma d with
    | none => [d]
    | some (f, rest) => f :: dialogueFieldsAux n rest

/-- Embedding of one iteration of the `load_ass` line loop, after the
carriage-return trim. -/
def assLineCore (st : AssState) (line : List Char) : AssState :=
  if line = [] then st
  else if line.head? = some ';' ∨ line.head? = some '!' then st
  else if line.head? = some '[' then
    { st with
      in_events :=
        (findSubstrIdx ['[', 'E', 'v', 'e', 'n', 't', 's', ']'] line).isSome }
  else if st.in_events = false then st
  else if ['F', 'o', 'r', 'm', 'a', 't', ':'].isPrefixOf line then
    { st with text_col_idx := parseFormatLine line }
  else if !(['D', 'i', 'a', 'l', 'o', 'g', 'u', 'e', ':'].isPrefixOf line) then st
  else
    let data := line.drop 9
    let fields := dialogueFieldsAux st.text_col_idx data
    if fields.length < st.text_col_idx + 1 then st
    else if fields.length < 3 then st
    else
      let start := parse_ass_time (trimBlank (fields.getD 1 []))
      let stop := parse_ass_time (trimBlank (fields.getD 2 []))
      let text := clean_text (fields.getD st.text_col_idx [])
      if text ≠ [] then { st with entries := st.entries ++ [⟨start, stop, text⟩] }
      else st

/-- Embedding of one iteration of the `load_ass` line loop. -/
def assLineStep (st : AssState) (line0 : List Char) : AssState :=
  assLineCore st (trimCr line0)

/-- Embedding of `SubtitleTrack::load_ass` on the file's decoded lines:
process every line, sort the result by start, and report whether at least
one entry was accepted. -/
def load_ass (ls : List (List Char)) : List SubtitleEntry × Bool :=
  let st := ls.foldl assLineStep ⟨false, 9, []⟩
  let es := sort_entries st.entries
  (es, !es.isEmpty)

/-- Subtitle-relevant state of `VideoPlayer` as seen by the decode loop:
the pending seek target (sentinel -1), the published position, whether the
embedded stream feeds the track, and the stored entries. -/
structure VPState where
  seek_target : ℚ
  cur_pts : ℚ
  use_embedded_sub : Bool
  entries : List SubtitleEntry
deriving DecidableEq

/-- Embedding of the seek-servicing block at the top of
`VideoPlayer::decode_loop` (media.cpp lines 173-195) restricted to the
modelled fields: when a seek is pending, consume it, clear the subtitle
store exactly when the embedded stream is the source, and publish the new
position. -/
def serviceSeek (st : VPState) : VPState :=
  if 0 ≤ st.seek_target then
    { st with
      seek_target := -1
      entries := if st.use_embedded_sub then [] else st.entries
      cur_pts := st.seek_target }
  else st

/-- Embedding of `MediaPlayer::get_progress` (media.h lines 112-115) as a
function of the published position and length. -/
def get_progress (pos len : ℚ) : ℚ :=
  if 0 < len then pos / len else 0

/-- State of `ImagePlayer` relevant to `seek_frames`: the animation flag,
the frame count, the per-frame delays (with the availability flag of
`current_anim_`), the frame index and the elapsed accumulator. -/
structure IPState where
  is_animated : Bool
  frameCount : Nat
  has_anim : Bool
  delays : List Int
  anim_frame_idx : Int
  anim_elapsed_ms : Int
deriving DecidableEq

/-- Delay of frame `i` as read by `seek_frames`: the stored delay when the
animation record exists and the delay is positive, else 100 ms. -/
def frameDelay (st : IPState) (i : Nat) : Int :=
  if st.has_anim ∧ 0 < st.delays.getD i 0 then st.delays.getD i 0 else 100

/-- Embedding of `ImagePlayer::seek_frames` (media.cpp lines 415-429).  The
C++ `%` on `int` is truncated division, `Int.tmod` here. -/
def seek_frames (st : IPState) (delta : Int) : IPState :=
  if st.is_animated = false ∨ st.frameCount = 0 then st
  else
    let count : Int := (st.frameCount : Int)
    let idx := (((st.anim_frame_idx + delta).tmod count) + count).tmod count
    let acc := (List.range idx.toNat).foldl (fun a i => a + frameDelay st i) 0
    { st with anim_frame_idx := idx, anim_elapsed_ms := acc }

/-! ### Basic lemmas about the store -/

attribute [local semireducible] Rat.mul Rat.inv Rat.add Rat.sub

theorem get_active_nil (t : ℚ) : get_active [] t = [] := rfl

/-! ### C9: progress guard -/

/-- C9: `MediaPlayer::get_progress` never divides by a non-positive length:
whenever the length is not positive the result is exactly 0, and for a
positive length the result is position divided by length, so the division
is only ever evaluated with a positive divisor. -/
theorem c9_get_progress_guard (pos len : ℚ) :
    (len ≤ 0 → get_progress pos len = 0) ∧
    (0 < len → get_progress pos len = pos / len) := by
  constructor
  · intro h
    simp [get_progress, not_lt.mpr h]
  · intro h
    simp [get_progress, h]

theorem c9_get_progress_guard_witness :
    get_progress 3 0 = 0 ∧ get_progress 3 2 = 3 / 2 :=
  ⟨(c9_get_progress_guard 3 0).1 (by norm_num),
   (c9_get_progress_guard 3 2).2 (by norm_num)⟩

/-! ### C5: seek clears the store exactly for the embedded source -/

/-- C5: when the decode loop services a pending seek, the subtitle store is
cleared if and only if the active source is the embedded stream: with an
embedded source the store becomes empty and every lookup returns the empty
string, while with an externally loaded track the whole state (hence every
stored entry and every lookup) is unchanged. -/
theorem c5_seek_embedded_clear (st : VPState) (hpend : 0 ≤ st.seek_target) :
    (st.use_embedded_sub = true →
      (serviceSeek st).entries = [] ∧ ∀ t, get_active (serviceSeek st).entries t = []) ∧
    (st.use_embedded_sub = false →
      (serviceSeek st).entries = st.entries ∧
      ∀ t, get_active (serviceSeek st).entries t = get_active st.entries t) := by
  constructor
  · intro hemb
    have h1 : (serviceSeek st).entries = [] := by
      simp [serviceSeek, hpend, hemb]
    exact ⟨h1, fun t => by rw [h1]; exact get_active_nil t⟩
  · intro hext
    have h1 : (serviceSeek st).entries = st.entries := by
      simp [serviceSeek, hpend, hext]
    exact ⟨h1, fun t => by rw [h1]⟩

theorem c5_seek_embedded_clear_witness :
    (serviceSeek ⟨2, 0, true, [⟨1, 4, ['a']⟩]⟩).entries = [] ∧
    (serviceSeek ⟨2, 0, false, [⟨1, 4, ['a']⟩]⟩).entries = [⟨1, 4, ['a']⟩] :=
  ⟨((c5_seek_embedded_clear ⟨2, 0, true, [⟨1, 4, ['a']⟩]⟩ (by norm_num)).1 rfl).1,
   ((c5_seek_embedded_clear ⟨2, 0, false, [⟨1, 4, ['a']⟩]⟩ (by norm_num)).2 rfl).1⟩

/-! ### C3: ASS dialogue line with a comma inside the text -/

/-- C3: parsing the Events section header, the default ASS Format line and a
Dialogue line whose text contains a comma yields exactly one entry with
start 1.0, end 3.5 and the full text including the comma: the text column
consumes the whole remainder of the line after the nine leading columns. -/
theorem c3_ass_comma_in_text :
    load_ass ["[Events]".toList,
      "Format: Layer,Start,End,Style,Name,MarginL,MarginR,MarginV,Effect,Text".toList,
      "Dialogue: 0,0:00:01.00,0:00:03.50,Default,,0,0,0,,Hi, there".toList] =
    ([⟨1, 7 / 2, "Hi, there".toList⟩], true) := by
  have h : (List.foldl assLineStep ⟨false, 9, []⟩
      ["[Events]".toList,
        "Format: Layer,Start,End,Style,Name,MarginL,MarginR,MarginV,Effect,Text".toList,
        "Dialogue: 0,0:00:01.00,0:00:03.50,Default,,0,0,0,,Hi, there".toList]).entries =
      [⟨1, 7 / 2, "Hi, there".toList⟩] := by decide
  simp only [load_ass, sort_entries, h, List.mergeSort_singleton, List.isEmpty_cons,
    Bool.not_false]

/-! ### C4: SRT round trip and return value -/

/-- C4: loading the single Grammar A block consisting of a sequence number,
the timecode line and the text Hello yields exactly one stored entry with
start 1.0, end 4.0 and text Hello, and in general the loader returns true
exactly when at least one entry was accepted. -/
theorem c4_srt_round_trip :
    load_srt ["1".toList, "00:00:01,000 --> 00:00:04,000".toList,
      "Hello".toList, "".toList] = ([⟨1, 4, "Hello".toList⟩], true) ∧
    ∀ ls : List (List Char), ((load_srt ls).2 = true ↔ (load_srt ls).1 ≠ []) := by
  refine ⟨by decide, fun ls => ?_⟩
  simp [load_srt]

/-! ### Sorted insertion lemmas -/

theorem mem_insertByStart {x y : SubtitleEntry} :
    ∀ {es : List SubtitleEntry}, y ∈ insertByStart x es ↔ y = x ∨ y ∈ es := by
  intro es
  induction es with
  | nil => simp [insertByStart]
  | cons e es ih =>
    by_cases h : e.start < x.start
    · simp only [insertByStart, if_pos h, List.mem_cons, ih]
      tauto
    · rw [insertByStart, if_neg h]
      simp only [List.mem_cons]

theorem insertByStart_pairwise {x : SubtitleEntry} :
    ∀ {es : List SubtitleEntry}, (es.Pairwise fun a b => a.start ≤ b.start) →
      (insertByStart x es).Pairwise fun a b => a.start ≤ b.start := by
  intro es
  induction es with
  | nil => intro _; simp [insertByStart]
  | cons e es ih =>
    intro h
    rcases List.pairwise_cons.mp h with ⟨he, hes⟩
    by_cases hlt : e.start < x.start
    · rw [insertByStart, if_pos hlt]
      refine List.pairwise_cons.mpr ⟨?_, ih hes⟩
      intro y hy
      rcases mem_insertByStart.mp hy with rfl | hy
      · exact le_of_lt hlt
      · exact he y hy
    · rw [insertByStart, if_neg hlt]
      refine List.pairwise_cons.mpr ⟨?_, h⟩
      intro y hy
      rcases List.mem_cons.mp hy with rfl | hy
      · exact not_lt.mp hlt
      · exact le_trans (not_lt.mp hlt) (he y hy)

theorem insertByStart_eq_take_drop (x : SubtitleEntry) :
    ∀ es : List SubtitleEntry, ∃ i, insertByStart x es = es.take i ++ x :: es.drop i := by
  intro es
  induction es with
  | nil => exact ⟨0, rfl⟩
  | cons e es ih =>
    by_cases h : e.start < x.start
    · rcases ih with ⟨i, hi⟩
      exact ⟨i + 1, by simp [insertByStart, if_pos h, hi]⟩
    · exact ⟨0, by simp [insertByStart, if_neg h]⟩

theorem length_insertByStart (x : SubtitleEntry) :
    ∀ es : List SubtitleEntry, (insertByStart x es).length = es.length + 1 := by
  intro es
  induction es with
  | nil => rfl
  | cons e es ih =>
    by_cases h : e.start < x.start <;> simp [insertByStart, h, ih]

/-! ### C2: live insertion keeps the store sorted -/

/-- C2: on a store sorted by start, `add_ffmpeg_entry` with non-empty
cleaned text inserts exactly one new entry at the sorted position determined
by its start (the result is the old list split at some index with the new
entry in between, still sorted, one entry longer); moreover the concrete
call sequence with starts 5.0, 2.0, 8.0 on an empty store leaves the starts
ordered 2.0, 5.0, 8.0 and the lookup at 6.0 returns the text of the entry
starting at 5.0. -/
theorem c2_add_ffmpeg_sorted_insert (es : List SubtitleEntry) (s e : ℚ) (raw : List Char)
    (hsort : es.Pairwise fun a b => a.start ≤ b.start)
    (hne : clean_text raw ≠ []) :
    (∃ i, add_ffmpeg_entry es s e raw =
        es.take i ++ (⟨s, e, clean_text raw⟩ : SubtitleEntry) :: es.drop i) ∧
    ((add_ffmpeg_entry es s e raw).Pairwise fun a b => a.start ≤ b.start) ∧
    (add_ffmpeg_entry es s e raw).length = es.length + 1 ∧
    ((add_ffmpeg_entry (add_ffmpeg_entry (add_ffmpeg_entry [] 5 7 "five".toList) 2 3
        "two".toList) 8 9 "eight".toList).map SubtitleEntry.start = [2, 5, 8] ∧
      get_active (add_ffmpeg_entry (add_ffmpeg_entry (add_ffmpeg_entry [] 5 7 "five".toList)
        2 3 "two".toList) 8 9 "eight".toList) 6 = "five".toList) := by
  have hadd : add_ffmpeg_entry es s e raw = insertByStart ⟨s, e, clean_text raw⟩ es := by
    simp [add_ffmpeg_entry, hne]
  refine ⟨?_, ?_, ?_, by decide⟩
  · rw [hadd]; exact insertByStart_eq_take_drop _ es
  · rw [hadd]; exact insertByStart_pairwise hsort
  · rw [hadd]; exact length_insertByStart _ es

theorem c2_add_ffmpeg_sorted_insert_witness :
    (add_ffmpeg_entry [⟨1, 2, ['a']⟩] 3 4 ['b']).length = 1 + 1 ∧
    ((add_ffmpeg_entry [⟨1, 2, ['a']⟩] 3 4 ['b']).Pairwise
      fun a b => a.start ≤ b.start) :=
  ⟨by
    have h := (c2_add_ffmpeg_sorted_insert [⟨1, 2, ['a']⟩] 3 4 ['b']
      (by decide) (by decide)).2.2.1
    simpa using h,
   (c2_add_ffmpeg_sorted_insert [⟨1, 2, ['a']⟩] 3 4 ['b']
      (by decide) (by decide)).2.1⟩

/-! ### C1: active lookup on a sorted store -/

theorem filter_start_le_eq_take (t : ℚ) :
    ∀ es : List SubtitleEntry, (es.Pairwise fun a b => a.start ≤ b.start) →
      es.filter (fun e => decide (e.start ≤ t)) =
        es.take (es.findIdx fun e => decide (t < e.start)) := by
  intro es
  induction es with
  | nil => intro _; rfl
  | cons a es ih =>
    intro h
    rcases List.pairwise_cons.mp h with ⟨ha, hes⟩
    by_cases hlt : t < a.start
    · have hk : (a :: es).findIdx (fun e => decide (t < e.start)) = 0 := by
        simp [List.findIdx_cons, hlt]
      rw [hk]
      simp only [List.take_zero]
      refine List.filter_eq_nil_iff.mpr ?_
      intro b hb
      rcases List.mem_cons.mp hb with rfl | hb
      · simp; linarith
      · simp; linarith [ha b hb]
    · have hk : (a :: es).findIdx (fun e => decide (t < e.start)) =
          (es.findIdx fun e => decide (t < e.start)) + 1 := by
        simp [List.findIdx_cons, hlt]
      rw [hk, List.take_succ_cons, List.filter_cons_of_pos (by simp; linarith), ih hes]

/-- C1: on a store sorted by start with valid entries, `get_active t`
returns the text of the last entry whose start is at most `t` exactly when
`t` is below that entry's end, and the empty string otherwise (in
particular when no entry starts at or before `t`).  The embedding of
`get_active` is a pure function of the store, so the call cannot mutate
it. -/
theorem c1_get_active_lookup (es : List SubtitleEntry) (t : ℚ)
    (hsort : es.Pairwise fun a b => a.start ≤ b.start)
    (hvalid : ∀ e ∈ es, e.start < e.end_) :
    ((es.filter fun e => decide (e.start ≤ t)).getLast? = none → get_active es t = []) ∧
    (∀ e, (es.filter fun e => decide (e.start ≤ t)).getLast? = some e →
      get_active es t = if t < e.end_ then e.text else []) := by
  have hfil := filter_start_le_eq_take t es hsort
  rcases Nat.eq_zero_or_pos (es.findIdx fun e => decide (t < e.start)) with h0 | hpos
  · have hnil : es.filter (fun e => decide (e.start ≤ t)) = [] := by
      rw [hfil, h0, List.take_zero]
    have hga : get_active es t = [] := by
      unfold get_active
      by_cases hemp : es.isEmpty
      · simp [hemp]
      · simp [hemp, h0]
    exact ⟨fun _ => hga, fun e he => by rw [hnil] at he; cases he⟩
  · set k := es.findIdx fun e => decide (t < e.start) with hk
    have hk_len : k ≤ es.length := List.findIdx_le_length _
    have hlt : k - 1 < es.length := by omega
    have hne : es.isEmpty = false := by
      rcases es with _ | ⟨a, es⟩
      · simp [List.findIdx_nil] at hk; omega
      · rfl
    have hstart : (es[k - 1]).start ≤ t := by
      have hf := @List.not_of_lt_findIdx SubtitleEntry
        (fun e => decide (t < e.start)) es (k - 1) (by omega)
      simp only [decide_eq_false_iff_not, not_lt] at hf
      exact hf
    have hget : (es.take k).getLast? = some (es[k - 1]) := by
      rw [List.getLast?_eq_getElem?]
      have hlen : (es.take k).length = k := by
        simp [List.length_take]; omega
      rw [hlen, List.getElem?_take_of_lt (by omega), List.getElem?_eq_getElem hlt]
    have hga : get_active es t =
        if t < (es[k - 1]).end_ then (es[k - 1]).text else [] := by
      unfold get_active
      simp only [hne, Bool.false_eq_true, if_false, ← hk]
      have hk0 : ¬ k = 0 := by omega
      simp only [hk0, if_false]
      rw [List.getD_eq_getElem?_getD, List.getElem?_eq_getElem hlt]
      by_cases hend : t < (es[k - 1]).end_
      · simp [hstart, hend]
      · simp [hend]
    refine ⟨fun hnone => ?_, fun e he => ?_⟩
    · rw [hfil, hget] at hnone; cases hnone
    · rw [hfil, hget] at he
      injection he with he
      subst he
      exact hga

theorem c1_get_active_lookup_witness :
    get_active [⟨1, 2, ['a']⟩] (3 / 2) = ['a'] ∧ get_active [⟨1, 2, ['a']⟩] 2 = [] := by
  constructor
  · have h := (c1_get_active_lookup [⟨1, 2, ['a']⟩] (3 / 2) (by decide) (by decide)).2
      ⟨1, 2, ['a']⟩ (by decide)
    rw [h, if_pos (by norm_num)]
  · have h := (c1_get_active_lookup [⟨1, 2, ['a']⟩] 2 (by decide) (by decide)).2
      ⟨1, 2, ['a']⟩ (by decide)
    rw [h, if_neg (by norm_num)]

/-! ### C10: frame-relative seeking stays in range -/

theorem tmod_lower_bound (a : Int) {n : Int} (hn : 0 < n) : -n < a.tmod n := by
  match a with
  | Int.ofNat m =>
    have h := @Int.tmod_nonneg (m : Int) n (by exact_mod_cast Nat.zero_le m)
    rw [Int.ofNat_eq_coe]
    omega
  | Int.negSucc m =>
    obtain ⟨k, rfl⟩ := Int.eq_succ_of_zero_lt hn
    have h1 : (Int.negSucc m).tmod ((k.succ : Nat) : Int) =
        -(((m + 1) % (k + 1) : Nat) : Int) := rfl
    have h2 : (m + 1) % (k + 1) < k + 1 := Nat.mod_lt _ (Nat.succ_pos k)
    rw [h1]
    omega

theorem tmod_emod_congr (a : Int) {n : Int} (hn : 0 < n) : a.tmod n % n = a % n := by
  match a with
  | Int.ofNat m =>
    show ((m : Int)).tmod n % n = (m : Int) % n
    rw [Int.tmod_eq_emod (by exact_mod_cast Nat.zero_le m) (le_of_lt hn)]
    exact Int.emod_emod_of_dvd _ dvd_rfl
  | Int.negSucc m =>
    obtain ⟨k, rfl⟩ := Int.eq_succ_of_zero_lt hn
    have h1 : (Int.negSucc m).tmod ((k.succ : Nat) : Int) =
        -(((m + 1 : Nat) : Int) % ((k.succ : Nat) : Int)) := by
      rw [← Int.ofNat_emod]
      rfl
    have hns : Int.negSucc m = -((m + 1 : Nat) : Int) := rfl
    rw [h1, hns, Int.neg_emod, Int.neg_emod,
      Int.sub_emod ((k.succ : Nat) : Int)
        (((m + 1 : Nat) : Int) % ((k.succ : Nat) : Int)),
      Int.emod_emod_of_dvd _ dvd_rfl, ← Int.sub_emod]

/-- The C++ normalisation `((x % n) + n) % n` with truncated `%` equals the
mathematical (euclidean) remainder. -/
theorem cpp_mod_norm (a : Int) {n : Int} (hn : 0 < n) :
    (a.tmod n + n).tmod n = a % n := by
  have h1 : 0 ≤ a.tmod n + n := by
    have := tmod_lower_bound a hn
    omega
  rw [Int.tmod_eq_emod h1 (le_of_lt hn), Int.add_emod_self]
  exact tmod_emod_congr a hn

/-- C10: `ImagePlayer::seek_frames` keeps the frame index in range for every
delta: on an animated player with frames the new index is the mathematical
remainder written in the claim as `((old + delta) mod count + count) mod
count` and lies in `[0, count)`; on a non-animated player or with an empty
frame list the call leaves the state unchanged. -/
theorem c10_seek_frames_in_range (st : IPState) (delta : Int) :
    ((st.is_animated = false ∨ st.frameCount = 0) → seek_frames st delta = st) ∧
    (st.is_animated = true → st.frameCount ≠ 0 →
      ((seek_frames st delta).anim_frame_idx =
          ((st.anim_frame_idx + delta) % (st.frameCount : Int) + (st.frameCount : Int)) %
            (st.frameCount : Int) ∧
        0 ≤ (seek_frames st delta).anim_frame_idx ∧
        (seek_frames st delta).anim_frame_idx < (st.frameCount : Int))) := by
  constructor
  · intro h
    rcases h with h | h <;> simp [seek_frames, h]
  · intro hanim hcount
    have hn : 0 < (st.frameCount : Int) := by
      exact_mod_cast Nat.pos_of_ne_zero hcount
    have hcond : ¬(st.is_animated = false ∨ st.frameCount = 0) := by
      simp [hanim, hcount]
    have hidx : (seek_frames st delta).anim_frame_idx =
        ((st.anim_frame_idx + delta).tmod (st.frameCount : Int) + (st.frameCount : Int)).tmod
          (st.frameCount : Int) := by
      simp [seek_frames, hanim, hcount]
    rw [hidx, cpp_mod_norm _ hn, Int.add_emod_self, Int.emod_emod_of_dvd _ dvd_rfl]
    exact ⟨rfl, Int.emod_nonneg _ (by omega), Int.emod_lt_of_pos _ hn⟩

theorem c10_seek_frames_in_range_witness :
    seek_frames ⟨false, 5, false, [], 2, 0⟩ 3 = ⟨false, 5, false, [], 2, 0⟩ ∧
    (seek_frames ⟨true, 10, true, [], 3, 0⟩ (-25)).anim_frame_idx = 8 := by
  constructor
  · exact (c10_seek_frames_in_range ⟨false, 5, false, [], 2, 0⟩ 3).1 (Or.inl rfl)
  · have h := ((c10_seek_frames_in_range ⟨true, 10, true, [], 3, 0⟩ (-25)).2 rfl
      (by decide)).1
    rw [h]
    decide

/-! ### C8: entries with empty cleaned text are silently dropped -/

/-- C8: an entry whose text cleans to the empty string is never stored and
no error is raised: `add_ffmpeg_entry` is a no-op on the whole store, the
SRT flush keeps the stored entries unchanged, and the ASS dialogue handler
keeps the stored entries unchanged when the extracted text column cleans to
the empty string. -/
theorem c8_empty_clean_dropped :
    (∀ (es : List SubtitleEntry) (s e : ℚ) (raw : List Char),
      clean_text raw = [] → add_ffmpeg_entry es s e raw = es) ∧
    (∀ st : SrtState, clean_text st.text_buf = [] → (srtFlush st).entries = st.entries) ∧
    (∀ (st : AssState) (rest : List Char),
      clean_text ((dialogueFieldsAux st.text_col_idx rest).getD st.text_col_idx []) = [] →
      (assLineCore st
        (['D', 'i', 'a', 'l', 'o', 'g', 'u', 'e', ':'] ++ rest)).entries = st.entries) := by
  refine ⟨?_, ?_, ?_⟩
  · intro es s e raw h
    simp [add_ffmpeg_entry, h]
  · intro st h
    by_cases hin : st.in_entry ∧ st.text_buf ≠ []
    · simp [srtFlush, hin, h]
    · simp [srtFlush, hin]
  · intro st rest h
    simp only [List.getD_eq_getElem?_getD] at h
    by_cases hev : st.in_events
    · by_cases h1 : (dialogueFieldsAux st.text_col_idx rest).length < st.text_col_idx + 1
      · simp [assLineCore, hev, h1]
      · by_cases h2 : (dialogueFieldsAux st.text_col_idx rest).length < 3
        · simp [assLineCore, hev, h1, h2]
        · simp [assLineCore, hev, h1, h2, h]
    · simp [assLineCore, hev]

theorem c8_empty_clean_dropped_witness :
    add_ffmpeg_entry [⟨1, 2, ['a']⟩] 3 4 (" ".toList) = [⟨1, 2, ['a']⟩] ∧
    (srtFlush ⟨1, 2, ['<', 'i', '>'], true, [⟨1, 2, ['a']⟩]⟩).entries = [⟨1, 2, ['a']⟩] ∧
    (assLineCore ⟨true, 9, [⟨1, 2, ['a']⟩]⟩
      (['D', 'i', 'a', 'l', 'o', 'g', 'u', 'e', ':'] ++
        "0,0:00:01.00,0:00:02.00,Default,,0,0,0,,<b>".toList)).entries =
      [⟨1, 2, ['a']⟩] :=
  ⟨c8_empty_clean_dropped.1 [⟨1, 2, ['a']⟩] 3 4 (" ".toList) (by decide),
   c8_empty_clean_dropped.2.1 ⟨1, 2, ['<', 'i', '>'], true, [⟨1, 2, ['a']⟩]⟩ (by decide),
   c8_empty_clean_dropped.2.2 ⟨true, 9, [⟨1, 2, ['a']⟩]⟩
     ("0,0:00:01.00,0:00:02.00,Default,,0,0,0,,<b>".toList) (by decide)⟩

/-! ### C7: bracket stripping keeps exactly the depth-zero characters -/

/-- Depth transition of the bracket strippers, as described by the claim:
an opening bracket increments, a closing bracket decrements only when the
depth is positive, and any other character leaves the depth unchanged. -/
def tagStep (opn cls : Char) (d : Int) (c : Char) : Int :=
  if c = opn then d + 1 else if c = cls then (if 0 < d then d - 1 else d) else d

/-- Specification-side description of the strippers, following the claim's
wording: pair every character with the depth before it and keep exactly the
non-bracket characters seen at depth zero. -/
def keptAtDepthZero (opn cls : Char) (s : List Char) : List Char :=
  ((s.scanl (tagStep opn cls) 0).zip s).filterMap fun pc =>
    if pc.1 = 0 ∧ ¬pc.2 = opn ∧ ¬pc.2 = cls then some pc.2 else none

theorem keptSpecAux_cons (opn cls : Char) (d : Int) (c : Char) (s : List Char) :
    (((c :: s).scanl (tagStep opn cls) d).zip (c :: s)).filterMap
        (fun pc => if pc.1 = 0 ∧ ¬pc.2 = opn ∧ ¬pc.2 = cls then some pc.2 else none) =
      (if d = 0 ∧ ¬c = opn ∧ ¬c = cls then [c] else []) ++
        ((s.scanl (tagStep opn cls) (tagStep opn cls d c)).zip s).filterMap
          (fun pc => if pc.1 = 0 ∧ ¬pc.2 = opn ∧ ¬pc.2 = cls then some pc.2 else none) := by
  rw [List.scanl_cons, List.singleton_append, List.zip_cons_cons, List.filterMap_cons]
  by_cases h : d = 0 ∧ ¬c = opn ∧ ¬c = cls <;> simp [h]

theorem stripTagsAux_eq_spec (opn cls : Char) :
    ∀ (s : List Char) (d : Int),
      stripTagsAux opn cls d s =
        ((s.scanl (tagStep opn cls) d).zip s).filterMap fun pc =>
          if pc.1 = 0 ∧ ¬pc.2 = opn ∧ ¬pc.2 = cls then some pc.2 else none := by
  intro s
  induction s with
  | nil => intro d; rfl
  | cons c s ih =>
    intro d
    rw [keptSpecAux_cons]
    by_cases h1 : c = opn
    · subst h1
      rw [stripTagsAux, if_pos rfl, ih]
      simp [tagStep]
    · by_cases h2 : c = cls
      · subst h2
        rw [stripTagsAux, if_neg h1, if_pos rfl, ih]
        simp [tagStep, h1]
      · by_cases h3 : d = 0
        · subst h3
          rw [stripTagsAux, if_neg h1, if_neg h2, if_pos rfl, ih]
          simp [tagStep, h1, h2]
        · rw [stripTagsAux, if_neg h1, if_neg h2, if_neg h3, ih]
          simp [tagStep, h1, h2, h3]

theorem scanl_tagStep_nonneg (opn cls : Char) :
    ∀ (s : List Char) (d : Int), 0 ≤ d →
      ∀ x ∈ s.scanl (tagStep opn cls) d, 0 ≤ x := by
  intro s
  induction s with
  | nil =>
    intro d hd x hx
    rw [List.scanl_nil, List.mem_singleton] at hx
    subst hx; exact hd
  | cons c s ih =>
    intro d hd x hx
    rw [List.scanl_cons, List.singleton_append, List.mem_cons] at hx
    rcases hx with rfl | hx
    · exact hd
    · refine ih (tagStep opn cls d c) ?_ x hx
      unfold tagStep
      split
      · omega
      · split
        · split <;> omega
        · exact hd

theorem stripTagsAux_append (opn cls : Char) :
    ∀ (u v : List Char) (d : Int),
      stripTagsAux opn cls d (u ++ v) =
        stripTagsAux opn cls d u ++ stripTagsAux opn cls (u.foldl (tagStep opn cls) d) v := by
  intro u
  induction u with
  | nil => intro v d; rfl
  | cons c u ih =>
    intro v d
    by_cases h1 : c = opn
    · subst h1
      rw [List.cons_append, stripTagsAux, if_pos rfl, stripTagsAux, if_pos rfl, ih,
        List.foldl_cons]
      simp [tagStep]
    · by_cases h2 : c = cls
      · subst h2
        rw [List.cons_append, stripTagsAux, if_neg h1, if_pos rfl, stripTagsAux,
          if_neg h1, if_pos rfl, ih, List.foldl_cons]
        simp [tagStep, h1]
      · by_cases h3 : d = 0
        · subst h3
          rw [List.cons_append, stripTagsAux, if_neg h1, if_neg h2, if_pos rfl,
            stripTagsAux, if_neg h1, if_neg h2, if_pos rfl, ih, List.foldl_cons]
          simp [tagStep, h1, h2]
        · rw [List.cons_append, stripTagsAux, if_neg h1, if_neg h2, if_neg h3,
            stripTagsAux, if_neg h1, if_neg h2, if_neg h3, ih, List.foldl_cons]
          simp [tagStep, h1, h2]

theorem stripTagsAux_drop (opn cls : Char) :
    ∀ (t : List Char) (d : Int), 0 < d →
      (∀ n ≤ t.length, 0 < (t.take n).foldl (tagStep opn cls) d) →
      stripTagsAux opn cls d t = [] := by
  intro t
  induction t with
  | nil => intro d _ _; rfl
  | cons c t ih =>
    intro d hd hall
    have hd' : 0 < tagStep opn cls d c := by
      have h1 := hall 1 (by simp)
      simpa [List.take_succ_cons, List.take_zero, List.foldl_cons] using h1
    have hall' : ∀ n ≤ t.length, 0 < (t.take n).foldl (tagStep opn cls) (tagStep opn cls d c) := by
      intro n hn
      have h := hall (n + 1) (by simpa using hn)
      simpa [List.take_succ_cons, List.foldl_cons] using h
    by_cases h1 : c = opn
    · have hstep : tagStep opn cls d c = d + 1 := by simp [tagStep, h1]
      rw [stripTagsAux, if_pos h1]
      have hrec := ih (tagStep opn cls d c) hd' hall'
      rw [hstep] at hrec
      exact hrec
    · by_cases h2 : c = cls
      · have hstep : tagStep opn cls d c = if 0 < d then d - 1 else d := by
          simp only [tagStep, if_neg h1, if_pos h2]
        rw [stripTagsAux, if_neg h1, if_pos h2]
        have hrec := ih (tagStep opn cls d c) hd' hall'
        rw [hstep] at hrec
        exact hrec
      · have hne0 : ¬d = 0 := by omega
        have hstep : tagStep opn cls d c = d := by simp [tagStep, h1, h2]
        rw [stripTagsAux, if_neg h1, if_neg h2, if_neg hne0]
        have hrec := ih (tagStep opn cls d c) hd' hall'
        rw [hstep] at hrec
        exact hrec

theorem mem_stripTagsAux (opn cls : Char) :
    ∀ (s : List Char) (d : Int) (c : Char),
      c ∈ stripTagsAux opn cls d s → c ∈ s ∧ ¬c = opn ∧ ¬c = cls := by
  intro s
  induction s with
  | nil =>
    intro d c h
    rw [stripTagsAux] at h
    cases h
  | cons a s ih =>
    intro d c h
    by_cases h1 : a = opn
    · rw [stripTagsAux, if_pos h1] at h
      rcases ih _ c h with ⟨hm, hc1, hc2⟩
      exact ⟨List.mem_cons_of_mem _ hm, hc1, hc2⟩
    · by_cases h2 : a = cls
      · rw [stripTagsAux, if_neg h1, if_pos h2] at h
        rcases ih _ c h with ⟨hm, hc1, hc2⟩
        exact ⟨List.mem_cons_of_mem _ hm, hc1, hc2⟩
      · by_cases h3 : d = 0
        · rw [stripTagsAux, if_neg h1, if_neg h2, if_pos h3] at h
          rcases List.mem_cons.mp h with rfl | h
          · exact ⟨List.mem_cons_self _ _, h1, h2⟩
          · rcases ih _ c h with ⟨hm, hc1, hc2⟩
            exact ⟨List.mem_cons_of_mem _ hm, hc1, hc2⟩
        · rw [stripTagsAux, if_neg h1, if_neg h2, if_neg h3] at h
          rcases ih _ c h with ⟨hm, hc1, hc2⟩
          exact ⟨List.mem_cons_of_mem _ hm, hc1, hc2⟩

theorem strip_drop_generic (opn cls : Char) (p t : List Char)
    (hall : ∀ n ≤ t.length,
      0 < ((p ++ [opn]) ++ t.take n).foldl (tagStep opn cls) 0) :
    stripTagsAux opn cls 0 (p ++ opn :: t) = stripTagsAux opn cls 0 (p ++ [opn]) := by
  have hassoc : p ++ opn :: t = (p ++ [opn]) ++ t := by simp
  rw [hassoc, stripTagsAux_append]
  have hd1 : 0 < (p ++ [opn]).foldl (tagStep opn cls) 0 := by
    have h := hall 0 (Nat.zero_le _)
    simpa using h
  have hdrop : stripTagsAux opn cls ((p ++ [opn]).foldl (tagStep opn cls) 0) t = [] := by
    refine stripTagsAux_drop _ _ t _ hd1 ?_
    intro n hn
    have h := hall n hn
    rw [List.foldl_append] at h
    exact h
  rw [hdrop, List.append_nil]

/-- C7: the two strippers keep exactly the characters seen at bracket depth
zero (the depth-annotated characterization), never emit a bracket, keep the
running depth non-negative (so an unmatched closing bracket is simply
ignored), and once an opening bracket is never matched again (the depth
stays positive through the whole remainder) that remainder contributes
nothing to the output. -/
theorem c7_strip_tags_spec (s : List Char) :
    (strip_ass_tags s = keptAtDepthZero braceOpen braceClose s) ∧
    (strip_html_tags s = keptAtDepthZero '<' '>' s) ∧
    (∀ c ∈ strip_ass_tags s, ¬c = braceOpen ∧ ¬c = braceClose) ∧
    (∀ c ∈ strip_html_tags s, ¬c = '<' ∧ ¬c = '>') ∧
    (∀ d ∈ s.scanl (tagStep braceOpen braceClose) 0, 0 ≤ d) ∧
    (∀ d ∈ s.scanl (tagStep '<' '>') 0, 0 ≤ d) ∧
    (∀ p t, s = p ++ braceOpen :: t →
      (∀ n ≤ t.length,
        0 < ((p ++ [braceOpen]) ++ t.take n).foldl (tagStep braceOpen braceClose) 0) →
      strip_ass_tags s = strip_ass_tags (p ++ [braceOpen])) ∧
    (∀ p t, s = p ++ '<' :: t →
      (∀ n ≤ t.length, 0 < ((p ++ ['<']) ++ t.take n).foldl (tagStep '<' '>') 0) →
      strip_html_tags s = strip_html_tags (p ++ ['<'])) := by
  refine ⟨stripTagsAux_eq_spec _ _ s 0, stripTagsAux_eq_spec _ _ s 0,
    fun c hc => (mem_stripTagsAux _ _ s 0 c hc).2,
    fun c hc => (mem_stripTagsAux _ _ s 0 c hc).2,
    scanl_tagStep_nonneg _ _ s 0 le_rfl,
    scanl_tagStep_nonneg _ _ s 0 le_rfl, ?_, ?_⟩
  · intro p t hs hall
    rw [hs]
    exact strip_drop_generic _ _ p t hall
  · intro p t hs hall
    rw [hs]
    exact strip_drop_generic _ _ p t hall

theorem c7_strip_tags_spec_witness :
    strip_ass_tags ("ab".toList ++ braceOpen :: "cd".toList) =
      strip_ass_tags ("ab".toList ++ [braceOpen]) ∧
    strip_html_tags ("ab".toList ++ '<' :: "cd".toList) =
      strip_html_tags ("ab".toList ++ ['<']) := by
  constructor
  · exact (c7_strip_tags_spec ("ab".toList ++ braceOpen :: "cd".toList)).2.2.2.2.2.2.1
      "ab".toList "cd".toList rfl (by decide)
  · exact (c7_strip_tags_spec ("ab".toList ++ '<' :: "cd".toList)).2.2.2.2.2.2.2
      "ab".toList "cd".toList rfl (by decide)

/-! ### C6: the text cleaner is idempotent -/

theorem stripTagsAux_id (opn cls : Char) :
    ∀ s : List Char, (∀ c ∈ s, ¬c = opn ∧ ¬c = cls) →
      stripTagsAux opn cls 0 s = s := by
  intro s
  induction s with
  | nil => intro _; rfl
  | cons a s ih =>
    intro h
    rcases h a (List.mem_cons_self a s) with ⟨h1, h2⟩
    rw [stripTagsAux, if_neg h1, if_neg h2, if_pos rfl]
    rw [ih fun c hc => h c (List.mem_cons_of_mem a hc)]

theorem head_unescape (a : Char) (s : List Char) :
    (unescapeNewlines (a :: s)).head? = some a ∨
      (unescapeNewlines (a :: s)).head? = some '\n' := by
  cases s with
  | nil => left; rfl
  | cons b rest =>
    by_cases h : a = '\\' ∧ (b = 'N' ∨ b = 'n')
    · right
      rw [unescapeNewlines, if_pos h]
      rfl
    · left
      rw [unescapeNewlines, if_neg h]
      rfl

theorem chain_unescape (s : List Char) :
    (unescapeNewlines s).Chain' fun a b => ¬(a = '\\' ∧ (b = 'N' ∨ b = 'n')) := by
  induction s using unescapeNewlines.induct with
  | case1 => simp [unescapeNewlines]
  | case2 c => simp [unescapeNewlines]
  | case3 a b rest h ih =>
    rw [unescapeNewlines, if_pos h]
    refine List.chain'_cons'.mpr ⟨?_, ih⟩
    intro y _
    intro hcon
    have : ('\n' : Char) ≠ '\\' := by decide
    exact this hcon.1
  | case4 a b rest h ih =>
    rw [unescapeNewlines, if_neg h]
    refine List.chain'_cons'.mpr ⟨?_, ih⟩
    intro y hy
    rcases head_unescape b rest with hh | hh
    · rw [hh] at hy
      cases hy
      exact h
    · rw [hh] at hy
      cases hy
      intro hcon
      rcases hcon.2 with h2 | h2 <;> exact absurd h2 (by decide)

theorem unescape_id :
    ∀ s : List Char,
      (s.Chain' fun a b => ¬(a = '\\' ∧ (b = 'N' ∨ b = 'n'))) →
      unescapeNewlines s = s := by
  intro s
  induction s using unescapeNewlines.induct with
  | case1 => intro _; rfl
  | case2 c => intro _; rfl
  | case3 a b rest h ih =>
    intro hch
    exact absurd h (List.chain'_cons.mp hch).1
  | case4 a b rest h ih =>
    intro hch
    rw [unescapeNewlines, if_neg h, ih (List.chain'_cons.mp hch).2]

theorem mem_unescape :
    ∀ (s : List Char) (c : Char), c ∈ unescapeNewlines s → c ∈ s ∨ c = '\n' := by
  intro s
  induction s using unescapeNewlines.induct with
  | case1 => intro c h; cases h
  | case2 x => intro c h; exact Or.inl h
  | case3 a b rest h ih =>
    intro c hc
    rw [unescapeNewlines, if_pos h] at hc
    rcases List.mem_cons.mp hc with rfl | hc
    · exact Or.inr rfl
    · rcases ih c hc with hm | hm
      · exact Or.inl (List.mem_cons_of_mem _ (List.mem_cons_of_mem _ hm))
      · exact Or.inr hm
  | case4 a b rest h ih =>
    intro c hc
    rw [unescapeNewlines, if_neg h] at hc
    rcases List.mem_cons.mp hc with rfl | hc
    · exact Or.inl (List.mem_cons_self _ _)
    · rcases ih c hc with hm | hm
      · exact Or.inl (List.mem_cons_of_mem _ hm)
      · exact Or.inr hm

theorem trimBy_isInfix (p : Char → Bool) (l : List Char) : trimBy p l <:+: l := by
  have h1 : l.dropWhile p <:+ l := List.dropWhile_suffix p
  have h3 : (l.dropWhile p).reverse.dropWhile p <:+ (l.dropWhile p).reverse :=
    List.dropWhile_suffix p
  have h4 := List.reverse_prefix.mpr h3
  rw [List.reverse_reverse] at h4
  exact List.IsInfix.trans (List.IsPrefix.isInfix h4) (List.IsSuffix.isInfix h1)

theorem dropWhile_head_not (p : Char → Bool) :
    ∀ (l : List Char) (c : Char), (l.dropWhile p).head? = some c → p c = false := by
  intro l
  induction l with
  | nil => intro c h; cases h
  | cons a l ih =>
    intro c h
    rw [List.dropWhile_cons] at h
    by_cases hp : p a
    · rw [if_pos hp] at h
      exact ih c h
    · rw [if_neg hp] at h
      cases h
      exact Bool.not_eq_true _ ▸ eq_false_of_ne_true hp

theorem getLast?_of_isSuffix {u v : List Char} {c : Char} (h : u <:+ v)
    (hc : u.getLast? = some c) : v.getLast? = some c := by
  rcases h with ⟨s, rfl⟩
  rw [List.getLast?_append, hc]
  rfl

theorem trimBy_head_not (p : Char → Bool) (l : List Char) (c : Char)
    (h : (trimBy p l).head? = some c) : p c = false := by
  rw [trimBy, List.head?_reverse] at h
  have h2 : ((l.dropWhile p).reverse).getLast? = some c :=
    getLast?_of_isSuffix (List.dropWhile_suffix p) h
  rw [List.getLast?_reverse] at h2
  exact dropWhile_head_not p _ c h2

theorem trimBy_last_not (p : Char → Bool) (l : List Char) (c : Char)
    (h : (trimBy p l).getLast? = some c) : p c = false := by
  rw [trimBy, List.getLast?_reverse] at h
  exact dropWhile_head_not p _ c h

theorem trimBy_id (p : Char → Bool) (l : List Char)
    (hh : ∀ c, l.head? = some c → p c = false)
    (hl : ∀ c, l.getLast? = some c → p c = false) : trimBy p l = l := by
  have h1 : l.dropWhile p = l := by
    cases l with
    | nil => rfl
    | cons a l =>
      rw [List.dropWhile_cons, if_neg]
      rw [hh a rfl]
      exact Bool.false_ne_true
  rw [trimBy, h1]
  have h2 : l.reverse.dropWhile p = l.reverse := by
    cases hrev : l.reverse with
    | nil => rfl
    | cons a u =>
      have ha : l.getLast? = some a := by
        rw [← List.head?_reverse, hrev]
        rfl
      rw [List.dropWhile_cons, if_neg]
      rw [hl a ha]
      exact Bool.false_ne_true
  rw [h2, List.reverse_reverse]

theorem trimBy_idem (p : Char → Bool) (l : List Char) :
    trimBy p (trimBy p l) = trimBy p l :=
  trimBy_id p _ (trimBy_head_not p l) (trimBy_last_not p l)

theorem mem_clean_text (s : List Char) (c : Char) (h : c ∈ clean_text s) :
    ¬c = braceOpen ∧ ¬c = braceClose ∧ ¬c = '<' ∧ ¬c = '>' := by
  have h1 : c ∈ unescapeNewlines (strip_ass_tags (strip_html_tags s)) :=
    List.IsInfix.subset (trimBy_isInfix isWs _) h
  rcases mem_unescape _ c h1 with h2 | h2
  · rcases mem_stripTagsAux braceOpen braceClose _ 0 c h2 with ⟨h3, h4, h5⟩
    rcases mem_stripTagsAux '<' '>' _ 0 c h3 with ⟨_, h6, h7⟩
    exact ⟨h4, h5, h6, h7⟩
  · subst h2
    refine ⟨by decide, by decide, by decide, by decide⟩

/-- C6: `clean_text` is idempotent: cleaning an already cleaned string
returns it unchanged.  This is proved for every input string, which covers
in particular the inputs built from the supported bracket and escape
constructs. -/
theorem c6_clean_text_idempotent (s : List Char) :
    clean_text (clean_text s) = clean_text s := by
  have h1 : strip_html_tags (clean_text s) = clean_text s :=
    stripTagsAux_id '<' '>' _ fun c hc =>
      ⟨(mem_clean_text s c hc).2.2.1, (mem_clean_text s c hc).2.2.2⟩
  have h2 : strip_ass_tags (clean_text s) = clean_text s :=
    stripTagsAux_id braceOpen braceClose _ fun c hc =>
      ⟨(mem_clean_text s c hc).1, (mem_clean_text s c hc).2.1⟩
  have h3 : unescapeNewlines (clean_text s) = clean_text s := by
    refine unescape_id _ ?_
    have hch := chain_unescape (strip_ass_tags (strip_html_tags s))
    exact List.Chain'.infix hch (trimBy_isInfix isWs _)
  have h4 : trimWs (clean_text s) = clean_text s := trimBy_idem isWs _
  show trimWs (unescapeNewlines (strip_ass_tags (strip_html_tags (clean_text s)))) =
    clean_text s
  rw [h1, h2, h3, h4]

end MP
